import Mathlib

/-!
Verification development for a resilient encrypted BLE device-protocol
client (Danfoss Eco eTRV integration).  The file shallowly embeds, from the
source: the reversible byte codec of `ble/crypto.py` (built on the external
XXTEA block cipher, modelled here by the reference btea algorithm on 32-bit
words), the fixed binary record models of `ble/structs.py`, the device
facade of `ble/device.py` with the constants of `const.py`, and the
connection/session state machine of `ble/client.py`.  Machine integers are
modelled as `Nat` with explicit reduction modulo `2 ^ 32`; wall-clock time
and temperatures are modelled as rationals; fallible operations return
`Option` or `Except`.
-/

/-- Modulus of 32-bit word arithmetic used throughout the cipher. -/
def M32 : Nat := 4294967296

theorem M32_eq_pow : M32 = 2 ^ 32 := by norm_num [M32]

theorem M32_pos : 0 < M32 := by norm_num [M32]

/-- XXTEA magic constant `0x9E3779B9`. -/
def DELTA : Nat := 2654435769

/-- Pointwise update of a word store at one index. -/
def upd (v : Nat → Nat) (i x : Nat) : Nat → Nat := fun j => if j = i then x else v j

theorem upd_same (v : Nat → Nat) (i x : Nat) : upd v i x i = x := by simp [upd]

theorem upd_ne (v : Nat → Nat) {i j : Nat} (x : Nat) (h : j ≠ i) : upd v i x j = v j := by
  simp [upd, h]

/-- XXTEA mixing function `MX`, with all intermediate results reduced mod `2 ^ 32`
exactly as the corresponding C expressions overflow:
`((z>>5 ^ y<<2) + (y>>3 ^ z<<4)) ^ ((sum^y) + (key[(p&3)^e] ^ z))` with
`e = (sum >> 2) & 3`. -/
def mx (k : Nat → Nat) (sum p z y : Nat) : Nat :=
  ((((z >>> 5) ^^^ ((y <<< 2) % M32)) + ((y >>> 3) ^^^ ((z <<< 4) % M32))) % M32) ^^^
    (((sum ^^^ y) + ((k ((p &&& 3) ^^^ ((sum >>> 2) &&& 3))) ^^^ z)) % M32)

theorem mx_lt (k : Nat → Nat) (sum p z y : Nat) : mx k sum p z y < M32 := by
  have h1 : (((z >>> 5) ^^^ ((y <<< 2) % M32)) + ((y >>> 3) ^^^ ((z <<< 4) % M32))) % M32
      < 2 ^ 32 := by
    rw [← M32_eq_pow]; exact Nat.mod_lt _ M32_pos
  have h2 : ((sum ^^^ y) + ((k ((p &&& 3) ^^^ ((sum >>> 2) &&& 3))) ^^^ z)) % M32 < 2 ^ 32 := by
    rw [← M32_eq_pow]; exact Nat.mod_lt _ M32_pos
  have h := Nat.xor_lt_two_pow h1 h2
  rw [← M32_eq_pow] at h
  exact h

/-- One position update of the XXTEA encryption pass: position `p` gains `MX`
computed from the current values of its cyclic neighbours. -/
def encStep (k : Nat → Nat) (n sum : Nat) (v : Nat → Nat) (p : Nat) : Nat → Nat :=
  upd v p ((v p + mx k sum p (v ((p + n - 1) % n)) (v ((p + 1) % n))) % M32)

/-- One position update of the XXTEA decryption pass: position `p` loses the
same `MX` value, recomputed from the current values of its cyclic neighbours. -/
def decStep (k : Nat → Nat) (n sum : Nat) (v : Nat → Nat) (p : Nat) : Nat → Nat :=
  upd v p ((v p + M32 - mx k sum p (v ((p + n - 1) % n)) (v ((p + 1) % n))) % M32)

theorem add_mod_inv (x m : Nat) (hx : x < M32) (hm : m < M32) :
    ((x + m) % M32 + M32 - m) % M32 = x := by
  simp only [M32] at *
  omega

theorem right_ne {n p : Nat} (hn : 2 ≤ n) (hp : p < n) : (p + 1) % n ≠ p := by
  rcases Nat.lt_or_ge (p + 1) n with h | h
  · rw [Nat.mod_eq_of_lt h]; omega
  · have he : p + 1 = n := by omega
    rw [he, Nat.mod_self]; omega

theorem left_ne {n p : Nat} (hn : 2 ≤ n) (hp : p < n) : (p + n - 1) % n ≠ p := by
  rcases Nat.eq_zero_or_pos p with h | h
  · subst h
    have he : 0 + n - 1 = n - 1 := by omega
    rw [he, Nat.mod_eq_of_lt (by omega)]
    omega
  · have he : p + n - 1 = (p - 1) + n := by omega
    rw [he, Nat.add_mod_right, Nat.mod_eq_of_lt (by omega)]
    omega

theorem decStep_encStep (k : Nat → Nat) {n : Nat} (sum : Nat) {p : Nat} (v : Nat → Nat)
    (hn : 2 ≤ n) (hp : p < n) (hv : v p < M32) :
    decStep k n sum (encStep k n sum v p) p = v := by
  have hL := left_ne hn hp
  have hR := right_ne hn hp
  funext j
  by_cases hj : j = p
  · subst hj
    simp only [decStep]
    rw [upd_same]
    simp only [encStep]
    rw [upd_same, upd_ne _ _ hL, upd_ne _ _ hR]
    exact add_mod_inv _ _ hv (mx_lt _ _ _ _ _)
  · simp only [decStep, encStep]
    rw [upd_ne _ _ hj, upd_ne _ _ hj]

/-- Word store whose every entry fits in 32 bits. -/
def Bounded (v : Nat → Nat) : Prop := ∀ j, v j < M32

theorem encStep_bounded (k : Nat → Nat) (n sum p : Nat) {v : Nat → Nat} (hv : Bounded v) :
    Bounded (encStep k n sum v p) := by
  intro j
  by_cases hj : j = p
  · subst hj
    simp only [encStep]
    rw [upd_same]
    exact Nat.mod_lt _ M32_pos
  · simp only [encStep]
    rw [upd_ne _ _ hj]
    exact hv j

theorem foldl_preserve {α β : Type} (P : α → Prop) (f : α → β → α) :
    ∀ (l : List β), (∀ v a, a ∈ l → P v → P (f v a)) → ∀ v, P v → P (l.foldl f v) := by
  intro l
  induction l with
  | nil => intro _ v hv; exact hv
  | cons a l ih =>
    intro h v hv
    exact ih (fun w b hb hw => h w b (List.mem_cons_of_mem a hb) hw) (f v a)
      (h v a (List.mem_cons_self a l) hv)

theorem foldl_inv {α β : Type} (f g : α → β → α) (P : α → Prop)
    (hP : ∀ v a, P v → P (f v a)) :
    ∀ (l : List β) (v : α), (∀ a ∈ l, ∀ w, P w → g (f w a) a = w) → P v →
      (l.reverse).foldl g (l.foldl f v) = v := by
  intro l
  induction l with
  | nil => intro v _ _; rfl
  | cons a l ih =>
    intro v hinv hv
    rw [List.reverse_cons, List.foldl_append]
    simp only [List.foldl_cons, List.foldl_nil]
    have h1 := ih (f v a) (fun b hb w hw => hinv b (List.mem_cons_of_mem a hb) w hw)
      (hP v a hv)
    rw [h1]
    exact hinv a (List.mem_cons_self a l) v hv

/-- One full XXTEA encryption round: the C loop body
`for p in 0..n-2: v[p] += MX;  v[n-1] += MX`, expressed uniformly as a left
fold of `encStep` over positions `0..n-1` (each step reads the current,
partially updated store). -/
def encRound (k : Nat → Nat) (n sum : Nat) (v : Nat → Nat) : Nat → Nat :=
  (List.range n).foldl (encStep k n sum) v

/-- One full XXTEA decryption round: positions processed in reverse order,
subtracting the same `MX` values. -/
def decRound (k : Nat → Nat) (n sum : Nat) (v : Nat → Nat) : Nat → Nat :=
  (List.range n).reverse.foldl (decStep k n sum) v

theorem encRound_bounded (k : Nat → Nat) (n sum : Nat) {v : Nat → Nat} (hv : Bounded v) :
    Bounded (encRound k n sum v) :=
  foldl_preserve Bounded (encStep k n sum) (List.range n)
    (fun w p _ hw => encStep_bounded k n sum p hw) v hv

theorem decRound_encRound (k : Nat → Nat) {n : Nat} (sum : Nat) (v : Nat → Nat)
    (hn : 2 ≤ n) (hv : Bounded v) : decRound k n sum (encRound k n sum v) = v := by
  exact foldl_inv (encStep k n sum) (decStep k n sum) Bounded
    (fun w p hw => encStep_bounded k n sum p hw) (List.range n) v
    (fun p hp w hw => decStep_encStep k sum w hn (List.mem_range.mp hp) (hw p)) hv

/-- Number of XXTEA rounds, `6 + 52/n` as in the reference algorithm. -/
def xxtea_num_rounds (n : Nat) : Nat := 6 + 52 / n

/-- Full XXTEA encryption on a word store of size `n`: rounds with running sums
`DELTA, 2*DELTA, ...` reduced mod `2 ^ 32` (the C `sum` is a `uint32`). -/
def encryptV (k : Nat → Nat) (n : Nat) (v : Nat → Nat) : Nat → Nat :=
  (List.range (xxtea_num_rounds n)).foldl
    (fun w i => encRound k n ((i + 1) * DELTA % M32) w) v

/-- Full XXTEA decryption: the same round sums in reverse order. -/
def decryptV (k : Nat → Nat) (n : Nat) (v : Nat → Nat) : Nat → Nat :=
  (List.range (xxtea_num_rounds n)).reverse.foldl
    (fun w i => decRound k n ((i + 1) * DELTA % M32) w) v

theorem encryptV_bounded (k : Nat → Nat) (n : Nat) {v : Nat → Nat} (hv : Bounded v) :
    Bounded (encryptV k n v) :=
  foldl_preserve Bounded _ (List.range (xxtea_num_rounds n))
    (fun w i _ hw => encRound_bounded k n ((i + 1) * DELTA % M32) hw) v hv

theorem decryptV_encryptV (k : Nat → Nat) {n : Nat} (v : Nat → Nat)
    (hn : 2 ≤ n) (hv : Bounded v) : decryptV k n (encryptV k n v) = v := by
  exact foldl_inv _ _ Bounded
    (fun w i hw => encRound_bounded k n ((i + 1) * DELTA % M32) hw)
    (List.range (xxtea_num_rounds n)) v
    (fun i _ w hw => decRound_encRound k ((i + 1) * DELTA % M32) w hn hw) hv

theorem encStep_out (k : Nat → Nat) (n sum p j : Nat) (v : Nat → Nat)
    (hp : p < n) (hj : n ≤ j) : encStep k n sum v p j = v j := by
  simp only [encStep]
  exact upd_ne _ _ (by omega)

theorem encRound_out (k : Nat → Nat) (n sum : Nat) (v : Nat → Nat) (j : Nat)
    (hj : n ≤ j) : encRound k n sum v j = v j :=
  foldl_preserve (fun w => w j = v j) (encStep k n sum) (List.range n)
    (fun w p hp hw => by
      show encStep k n sum w p j = v j
      rw [encStep_out k n sum p j w (List.mem_range.mp hp) hj]; exact hw) v rfl

theorem encryptV_out (k : Nat → Nat) (n : Nat) (v : Nat → Nat) (j : Nat)
    (hj : n ≤ j) : encryptV k n v j = v j :=
  foldl_preserve (fun w => w j = v j) _ (List.range (xxtea_num_rounds n))
    (fun w i _ hw => by
      show encRound k n ((i + 1) * DELTA % M32) w j = v j
      rw [encRound_out k n ((i + 1) * DELTA % M32) w j hj]; exact hw) v rfl

/-- Word store backed by a list (default 0 beyond the end), as the cipher
reads its input buffer. -/
def listToV (ws : List Nat) : Nat → Nat := fun i => ws.getD i 0

/-- First `n` entries of a word store, as a list. -/
def vToList (n : Nat) (v : Nat → Nat) : List Nat := (List.range n).map v

theorem vToList_length (n : Nat) (v : Nat → Nat) : (vToList n v).length = n := by
  simp [vToList]

theorem vToList_listToV (ws : List Nat) : vToList ws.length (listToV ws) = ws := by
  apply List.ext_getElem (by simp [vToList])
  intro i h1 h2
  simp only [vToList, listToV, List.getElem_map, List.getElem_range]
  exact List.getD_eq_getElem ws 0 h2

theorem listToV_vToList (n : Nat) (v : Nat → Nat) (hv0 : ∀ j, n ≤ j → v j = 0) :
    listToV (vToList n v) = v := by
  funext i
  by_cases hi : i < n
  · have hlen : i < (vToList n v).length := by rw [vToList_length]; exact hi
    rw [listToV, List.getD_eq_getElem _ _ hlen]
    simp [vToList]
  · have hlen : (vToList n v).length ≤ i := by rw [vToList_length]; omega
    rw [listToV, List.getD_eq_default _ _ hlen, hv0 i (by omega)]

theorem listToV_bounded (ws : List Nat) (hw : ∀ w ∈ ws, w < M32) : Bounded (listToV ws) := by
  intro j
  by_cases hj : j < ws.length
  · rw [listToV, List.getD_eq_getElem _ _ hj]
    exact hw _ (List.getElem_mem hj)
  · rw [listToV, List.getD_eq_default _ _ (by omega)]
    exact M32_pos

/-- XXTEA encryption of a list of 32-bit words (size taken from the list). -/
def xxtea_encrypt_words (k : Nat → Nat) (ws : List Nat) : List Nat :=
  vToList ws.length (encryptV k ws.length (listToV ws))

/-- XXTEA decryption of a list of 32-bit words (size taken from the list). -/
def xxtea_decrypt_words (k : Nat → Nat) (ws : List Nat) : List Nat :=
  vToList ws.length (decryptV k ws.length (listToV ws))

theorem xxtea_encrypt_words_length (k : Nat → Nat) (ws : List Nat) :
    (xxtea_encrypt_words k ws).length = ws.length := vToList_length _ _

theorem xxtea_decrypt_encrypt_words (k : Nat → Nat) (ws : List Nat) (hn : 2 ≤ ws.length)
    (hw : ∀ w ∈ ws, w < M32) : xxtea_decrypt_words k (xxtea_encrypt_words k ws) = ws := by
  have hB : Bounded (listToV ws) := listToV_bounded ws hw
  have hv : listToV (xxtea_encrypt_words k ws) = encryptV k ws.length (listToV ws) := by
    unfold xxtea_encrypt_words
    apply listToV_vToList
    intro j hj
    rw [encryptV_out k ws.length (listToV ws) j hj]
    exact List.getD_eq_default _ _ (by omega)
  unfold xxtea_decrypt_words
  rw [xxtea_encrypt_words_length, hv,
    decryptV_encryptV k (listToV ws) hn hB, vToList_listToV]

theorem xxtea_encrypt_words_bounded (k : Nat → Nat) (ws : List Nat)
    (hw : ∀ w ∈ ws, w < M32) : ∀ w ∈ xxtea_encrypt_words k ws, w < M32 := by
  intro w hmem
  unfold xxtea_encrypt_words vToList at hmem
  rcases List.mem_map.mp hmem with ⟨i, _, rfl⟩
  exact encryptV_bounded k ws.length (listToV_bounded ws hw) i

/-- Little-endian packing of bytes into 32-bit words, four bytes per word. -/
def bytes_to_words : List Nat → List Nat
  | b0 :: b1 :: b2 :: b3 :: rest =>
      (b0 + 256 * b1 + 65536 * b2 + 16777216 * b3) :: bytes_to_words rest
  | _ => []

/-- Little-endian unpacking of one 32-bit word into four bytes. -/
def word_to_bytes (w : Nat) : List Nat :=
  [w % 256, w / 256 % 256, w / 65536 % 256, w / 16777216 % 256]

/-- Little-endian unpacking of a word list into bytes. -/
def words_to_bytes (ws : List Nat) : List Nat :=
  ws.foldr (fun w acc => word_to_bytes w ++ acc) []

theorem words_to_bytes_cons (w : Nat) (ws : List Nat) :
    words_to_bytes (w :: ws) = word_to_bytes w ++ words_to_bytes ws := rfl

theorem word_to_bytes_length (w : Nat) : (word_to_bytes w).length = 4 := rfl

theorem words_to_bytes_length (ws : List Nat) :
    (words_to_bytes ws).length = 4 * ws.length := by
  induction ws with
  | nil => rfl
  | cons w ws ih =>
    rw [words_to_bytes_cons]
    simp only [List.length_append, List.length_cons, ih, word_to_bytes_length]
    omega

theorem bytes_to_words_length (bs : List Nat) (h : bs.length % 4 = 0) :
    4 * (bytes_to_words bs).length = bs.length := by
  induction bs using bytes_to_words.induct with
  | case1 b0 b1 b2 b3 rest ih =>
    simp only [List.length_cons] at h
    simp only [bytes_to_words, List.length_cons, ih (by omega)]
    omega
  | case2 bs h4 =>
    match bs, h4 with
    | [], _ => rfl
    | [a], h4 => simp at h
    | [a, b], h4 => simp at h
    | [a, b, c], h4 => simp at h
    | a :: b :: c :: d :: r, h4 => exact absurd rfl (h4 a b c d r)

theorem words_to_bytes_bytes_to_words (bs : List Nat) (h4 : bs.length % 4 = 0)
    (hb : ∀ x ∈ bs, x < 256) : words_to_bytes (bytes_to_words bs) = bs := by
  induction bs using bytes_to_words.induct with
  | case1 b0 b1 b2 b3 rest ih =>
    simp only [List.length_cons] at h4
    have h0 := hb b0 (by simp)
    have h1 := hb b1 (by simp)
    have h2 := hb b2 (by simp)
    have h3 := hb b3 (by simp)
    rw [bytes_to_words, words_to_bytes_cons,
      ih (by omega) (fun x hx => hb x (by simp [hx]))]
    simp only [word_to_bytes, List.cons_append, List.nil_append, List.cons.injEq]
    exact ⟨by omega, by omega, by omega, by omega, trivial⟩
  | case2 bs hne =>
    match bs, hne with
    | [], _ => rfl
    | [a], h4' => simp at h4
    | [a, b], h4' => simp at h4
    | [a, b, c], h4' => simp at h4
    | a :: b :: c :: d :: r, h4' => exact absurd rfl (h4' a b c d r)

theorem bytes_to_words_words_to_bytes (ws : List Nat) (hw : ∀ w ∈ ws, w < M32) :
    bytes_to_words (words_to_bytes ws) = ws := by
  induction ws with
  | nil => rfl
  | cons w ws ih =>
    have hwlt : w < M32 := hw w (by simp)
    rw [words_to_bytes_cons]
    show bytes_to_words
      (w % 256 :: w / 256 % 256 :: w / 65536 % 256 :: w / 16777216 % 256 :: words_to_bytes ws)
      = w :: ws
    rw [bytes_to_words, ih (fun x hx => hw x (by simp [hx]))]
    simp only [M32] at hwlt
    congr 1
    omega

theorem bytes_to_words_bounded (bs : List Nat) (hb : ∀ x ∈ bs, x < 256) :
    ∀ w ∈ bytes_to_words bs, w < M32 := by
  induction bs using bytes_to_words.induct with
  | case1 b0 b1 b2 b3 rest ih =>
    intro w hwmem
    rw [bytes_to_words] at hwmem
    rcases List.mem_cons.mp hwmem with h | h
    · have h0 := hb b0 (by simp)
      have h1 := hb b1 (by simp)
      have h2 := hb b2 (by simp)
      have h3 := hb b3 (by simp)
      simp only [M32]
      omega
    · exact ih (fun x hx => hb x (by simp [hx])) w h
  | case2 bs hne =>
    intro w hwmem
    match bs, hne with
    | [], _ => simp [bytes_to_words] at hwmem
    | [a], _ => simp [bytes_to_words] at hwmem
    | [a, b], _ => simp [bytes_to_words] at hwmem
    | [a, b, c], _ => simp [bytes_to_words] at hwmem
    | a :: b :: c :: d :: r, h4' => exact absurd rfl (h4' a b c d r)

/-- Embedding of `_reverse_chunks` from `ble/crypto.py`: reverse the byte
order inside each 4-byte chunk; a final chunk shorter than 4 bytes is
reversed as-is, exactly like the Python slice `data[i:i+4][::-1]`. -/
def reverse_chunks : List Nat → List Nat
  | b0 :: b1 :: b2 :: b3 :: rest => b3 :: b2 :: b1 :: b0 :: reverse_chunks rest
  | l => l.reverse

theorem reverse_chunks_length (l : List Nat) : (reverse_chunks l).length = l.length := by
  induction l using reverse_chunks.induct with
  | case1 b0 b1 b2 b3 rest ih => simp [reverse_chunks, ih]
  | case2 l hne =>
    match l, hne with
    | [], _ => rfl
    | [a], _ => rfl
    | [a, b], _ => rfl
    | [a, b, c], _ => rfl
    | a :: b :: c :: d :: r, hne => exact absurd rfl (hne a b c d r)

theorem reverse_chunks_mem (l : List Nat) : ∀ x ∈ reverse_chunks l, x ∈ l := by
  induction l using reverse_chunks.induct with
  | case1 b0 b1 b2 b3 rest ih =>
    intro x hx
    rw [reverse_chunks] at hx
    simp only [List.mem_cons] at hx ⊢
    rcases hx with h | h | h | h | h
    · exact Or.inr (Or.inr (Or.inr (Or.inl h)))
    · exact Or.inr (Or.inr (Or.inl h))
    · exact Or.inr (Or.inl h)
    · exact Or.inl h
    · exact Or.inr (Or.inr (Or.inr (Or.inr (ih x h))))
  | case2 l hne =>
    intro x hx
    match l, hne with
    | [], _ => exact hx
    | [a], _ => exact hx
    | [a, b], _ => simpa using List.mem_reverse.mp hx
    | [a, b, c], _ => simpa using List.mem_reverse.mp hx
    | a :: b :: c :: d :: r, hne => exact absurd rfl (hne a b c d r)

theorem reverse_chunks_reverse_chunks (l : List Nat) (h4 : l.length % 4 = 0) :
    reverse_chunks (reverse_chunks l) = l := by
  induction l using reverse_chunks.induct with
  | case1 b0 b1 b2 b3 rest ih =>
    have hr : rest.length % 4 = 0 := by
      simp only [List.length_cons] at h4; omega
    rw [reverse_chunks]
    rw [reverse_chunks]
    rw [ih hr]
  | case2 l hne =>
    match l, hne with
    | [], _ => rfl
    | [a], _ => simp at h4
    | [a, b], _ => simp at h4
    | [a, b, c], _ => simp at h4
    | a :: b :: c :: d :: r, hne => exact absurd rfl (hne a b c d r)

/-- Key schedule of the external xxtea module: the 16-byte key packed into
four 32-bit words, accessed cyclically by `MX`. -/
def xxtea_key_words (key : List Nat) : Nat → Nat := listToV (bytes_to_words key)

/-- Model of the external library call `xxtea.encrypt(data, key, padding=False)`:
the library refuses data whose length is not a multiple of 4 or is shorter
than 8 bytes, and keys that are not exactly 16 bytes (`none` models the
raised ValueError); otherwise it runs the block cipher over the 32-bit words. -/
def xxtea_encrypt (data key : List Nat) : Option (List Nat) :=
  if 8 ≤ data.length ∧ data.length % 4 = 0 ∧ key.length = 16 then
    some (words_to_bytes (xxtea_encrypt_words (xxtea_key_words key) (bytes_to_words data)))
  else none

/-- Model of the external library call `xxtea.decrypt(data, key, padding=False)`,
with the same validity conditions as encryption. -/
def xxtea_decrypt (data key : List Nat) : Option (List Nat) :=
  if 8 ≤ data.length ∧ data.length % 4 = 0 ∧ key.length = 16 then
    some (words_to_bytes (xxtea_decrypt_words (xxtea_key_words key) (bytes_to_words data)))
  else none

/-- Failure cases of `etrv_decode` (the Python code raises a single
`EtrvDecodeError` class; the constructors here separate its distinct
messages: device-reported error code, length below 8, length not a multiple
of 4) plus the case of a ValueError escaping the xxtea library itself. -/
inductive EtrvDecodeError where
  | deviceError (code : Nat)
  | tooShort (len : Nat)
  | notMultiple (len : Nat)
  | libError
deriving DecidableEq, Repr

/-- Generic length failures of `etrv_decode`, as opposed to the distinguished
device-error-code failure. -/
def EtrvDecodeError.isLengthFailure : EtrvDecodeError → Bool
  | .tooShort _ => true
  | .notMultiple _ => true
  | _ => false

/-- Embedding of `etrv_encode` from `ble/crypto.py`: reverse each 4-byte
chunk, encrypt, reverse each 4-byte chunk of the result.  A ValueError
raised by the xxtea library propagates (`none`). -/
def etrv_encode (data key : List Nat) : Option (List Nat) :=
  (xxtea_encrypt (reverse_chunks data) key).map reverse_chunks

/-- Embedding of `etrv_decode` from `ble/crypto.py`: payloads shorter than 8
bytes are rejected, a 1-byte payload distinctly so as a device-reported
error code; payloads whose length is not a multiple of 4 are rejected;
otherwise the payload is chunk-reversed, decrypted and chunk-reversed again. -/
def etrv_decode (data key : List Nat) : Except EtrvDecodeError (List Nat) :=
  if data.length < 8 then
    if data.length = 1 then Except.error (EtrvDecodeError.deviceError (data.getD 0 0))
    else Except.error (EtrvDecodeError.tooShort data.length)
  else if data.length % 4 ≠ 0 then Except.error (EtrvDecodeError.notMultiple data.length)
  else
    match xxtea_decrypt (reverse_chunks data) key with
    | some d => Except.ok (reverse_chunks d)
    | none => Except.error EtrvDecodeError.libError

theorem etrv_decode_valid (data key : List Nat) (h8 : ¬ data.length < 8)
    (h4 : data.length % 4 = 0) :
    etrv_decode data key =
      match xxtea_decrypt (reverse_chunks data) key with
      | some d => Except.ok (reverse_chunks d)
      | none => Except.error EtrvDecodeError.libError := by
  rw [etrv_decode, if_neg h8, if_neg (by omega)]

/-- C1 (amended): for every byte buffer whose length is a multiple of 4 and
at least 8 bytes and every 16-byte key, decoding the result of encoding that
buffer with the key returns the original buffer. -/
theorem etrv_encode_decode_roundtrip (data key : List Nat)
    (h8 : 8 ≤ data.length) (h4 : data.length % 4 = 0)
    (hb : ∀ x ∈ data, x < 256) (hk : key.length = 16) :
    (etrv_encode data key).map (fun e => etrv_decode e key) =
      some (Except.ok data) := by
  set kw := xxtea_key_words key with hkw
  set rc := reverse_chunks data with hrc
  have hrclen : rc.length = data.length := reverse_chunks_length data
  have hrcb : ∀ x ∈ rc, x < 256 := fun x hx => hb x (reverse_chunks_mem data x hx)
  have hrc8 : 8 ≤ rc.length := by omega
  have hrc4 : rc.length % 4 = 0 := by omega
  set W0 := bytes_to_words rc with hW0
  have hW0b : ∀ w ∈ W0, w < M32 := bytes_to_words_bounded rc hrcb
  have hW0len : 4 * W0.length = rc.length := bytes_to_words_length rc hrc4
  have hW0ge : 2 ≤ W0.length := by omega
  set E := xxtea_encrypt_words kw W0 with hE
  have hEb : ∀ w ∈ E, w < M32 := xxtea_encrypt_words_bounded kw W0 hW0b
  have hElen : E.length = W0.length := xxtea_encrypt_words_length kw W0
  set EB := words_to_bytes E with hEB
  have hEBlen : EB.length = data.length := by
    rw [hEB, words_to_bytes_length, hElen]; omega
  have henc : etrv_encode data key = some (reverse_chunks EB) := by
    rw [etrv_encode, ← hrc, xxtea_encrypt, if_pos ⟨hrc8, hrc4, hk⟩]
    rw [Option.map_some']
  rw [henc, Option.map_some']
  refine congrArg some ?_
  have hrEB8 : ¬ (reverse_chunks EB).length < 8 := by
    rw [reverse_chunks_length]; omega
  have hrEB4 : (reverse_chunks EB).length % 4 = 0 := by
    rw [reverse_chunks_length]; omega
  rw [etrv_decode_valid _ _ hrEB8 hrEB4]
  have hinv : reverse_chunks (reverse_chunks EB) = EB :=
    reverse_chunks_reverse_chunks EB (by omega)
  rw [hinv]
  have hdec : xxtea_decrypt EB key =
      some (words_to_bytes (xxtea_decrypt_words kw (bytes_to_words EB))) := by
    rw [xxtea_decrypt, if_pos ⟨by omega, by omega, hk⟩]
  rw [hdec]
  show Except.ok (reverse_chunks (words_to_bytes (xxtea_decrypt_words kw (bytes_to_words EB))))
      = Except.ok data
  have hbw : bytes_to_words EB = E := by
    rw [hEB]; exact bytes_to_words_words_to_bytes E hEb
  rw [hbw, hE, xxtea_decrypt_encrypt_words kw W0 hW0ge hW0b, hW0,
    words_to_bytes_bytes_to_words rc hrc4 hrcb, hrc,
    reverse_chunks_reverse_chunks data h4]

/-- C1 witness: a concrete 8-byte buffer and 16-byte key satisfying the
hypotheses of the round-trip theorem. -/
theorem etrv_encode_decode_roundtrip_witness :
    8 ≤ ([0, 1, 2, 3, 4, 5, 6, 7] : List Nat).length ∧
    (etrv_encode [0, 1, 2, 3, 4, 5, 6, 7] (List.replicate 16 0)).map
        (fun e => etrv_decode e (List.replicate 16 0)) =
      some (Except.ok [0, 1, 2, 3, 4, 5, 6, 7]) :=
  ⟨by decide,
    etrv_encode_decode_roundtrip [0, 1, 2, 3, 4, 5, 6, 7] (List.replicate 16 0)
      (by decide) (by decide) (by decide) (by decide)⟩

/-- C1 counterexample: a 4-byte buffer has a length that is a positive
multiple of 4, yet encoding it and decoding the result cannot return the
original buffer: the cipher layer refuses buffers shorter than 8 bytes and
`etrv_decode` itself rejects any payload shorter than 8 bytes, so the
round-trip claim fails for this input. -/
theorem etrv_roundtrip_fails_on_four_bytes :
    (etrv_encode [1, 2, 3, 4] (List.replicate 16 0)).map
        (fun e => etrv_decode e (List.replicate 16 0)) ≠
      some (Except.ok [1, 2, 3, 4]) := by
  have h : etrv_encode [1, 2, 3, 4] (List.replicate 16 0) = none := by decide
  rw [h]
  simp

/-- C3: `etrv_decode` rejects every input whose length is below 8 bytes or
not a multiple of 4; an input of exactly 1 byte fails with the distinguished
device-error-code failure carrying that byte, and every other invalid length
fails with a generic length failure. -/
theorem etrv_decode_rejects_invalid_lengths (data key : List Nat)
    (h : data.length < 8 ∨ data.length % 4 ≠ 0) :
    (data.length = 1 →
      etrv_decode data key =
        Except.error (EtrvDecodeError.deviceError (data.getD 0 0))) ∧
    (data.length ≠ 1 →
      ∃ e, etrv_decode data key = Except.error e ∧ e.isLengthFailure = true) := by
  constructor
  · intro h1
    rw [etrv_decode, if_pos (by omega), if_pos h1]
  · intro h1
    by_cases h8 : data.length < 8
    · exact ⟨EtrvDecodeError.tooShort data.length,
        by rw [etrv_decode, if_pos h8, if_neg h1], rfl⟩
    · have h4 : data.length % 4 ≠ 0 := by tauto
      exact ⟨EtrvDecodeError.notMultiple data.length,
        by rw [etrv_decode, if_neg h8, if_pos h4], rfl⟩

/-- C3 witness: the 1-byte input `[0xAB]` fails with the device error code
`0xAB`, and the 5-byte input fails with a generic length failure. -/
theorem etrv_decode_rejects_invalid_lengths_witness :
    etrv_decode [171] [] = Except.error (EtrvDecodeError.deviceError 171) ∧
    (∃ e, etrv_decode [1, 2, 3, 4, 5] [] = Except.error e ∧
      e.isLengthFailure = true) :=
  ⟨(etrv_decode_rejects_invalid_lengths [171] [] (Or.inl (by decide))).1 rfl,
    (etrv_decode_rejects_invalid_lengths [1, 2, 3, 4, 5] [] (Or.inl (by decide))).2
      (by decide)⟩

/-- Truncation toward zero of a rational, the behaviour of the Python
builtin `int()` on the (exactly representable) values handled here. -/
def pyInt (q : ℚ) : ℤ := Int.tdiv q.num (q.den : ℤ)

/-- Embedding of the module-level helper in `ble/structs.py` that converts a
raw wire byte to degrees Celsius: `raw * 0.5`. -/
def to_temperature (raw : Nat) : ℚ := (raw : ℚ) * (1 / 2)

/-- Embedding of the module-level helper in `ble/structs.py` that converts
degrees Celsius to a raw wire byte: `int(value * 2)`, truncation toward
zero. -/
def from_temperature (value : ℚ) : ℤ := pyInt (value * 2)

/-- Embedding of the `TemperatureData` record of `ble/structs.py`.  The
field `raw` holds the full original payload (`_raw` in the source). -/
structure TemperatureData where
  set_point : ℚ
  room_temperature : ℚ
  raw : List Nat
deriving DecidableEq, Repr

/-- Embedding of `TemperatureData.from_bytes`: byte 0 is the setpoint,
byte 1 the room temperature, and the whole payload is retained; a payload
shorter than 2 bytes raises an IndexError in Python (`none` here). -/
def TemperatureData.from_bytes (data : List Nat) : Option TemperatureData :=
  match data with
  | b0 :: b1 :: _ => some ⟨to_temperature b0, to_temperature b1, data⟩
  | _ => none

/-- Embedding of `TemperatureData.with_set_point`: copy the retained payload
and overwrite byte offset 0 with the encoded setpoint.  A Python bytearray
item assignment outside `0..255` raises a ValueError (`none` here). -/
def TemperatureData.with_set_point (t : TemperatureData) (sp : ℚ) : Option (List Nat) :=
  if 0 ≤ from_temperature sp ∧ from_temperature sp < 256 then
    some (t.raw.set 0 (from_temperature sp).toNat)
  else none

/-- C5: for every record decoded from a payload and every setpoint value,
a successful `with_set_point` yields a payload of the same length whose byte
offset 0 is the encoded setpoint and whose every other byte is identical to
the original payload. -/
theorem with_set_point_changes_only_byte_zero (data : List Nat) (v : ℚ)
    (r : TemperatureData) (out : List Nat)
    (hr : TemperatureData.from_bytes data = some r)
    (hout : r.with_set_point v = some out) :
    out.length = data.length ∧
    out.getD 0 0 = (from_temperature v).toNat ∧
    ∀ i, 1 ≤ i → out.getD i 0 = data.getD i 0 := by
  have hraw : r.raw = data ∧ 0 < data.length := by
    match data, hr with
    | b0 :: b1 :: rest, hr =>
      rw [TemperatureData.from_bytes] at hr
      injection hr with hr
      exact ⟨by rw [← hr], by simp⟩
  have hout2 : out = data.set 0 (from_temperature v).toNat := by
    rw [TemperatureData.with_set_point] at hout
    by_cases hc : 0 ≤ from_temperature v ∧ from_temperature v < 256
    · rw [if_pos hc] at hout
      injection hout with hout
      rw [← hout, hraw.1]
    · rw [if_neg hc] at hout
      exact absurd hout (by simp)
  subst hout2
  refine ⟨List.length_set data 0 _, ?_, ?_⟩
  · have h0 : 0 < (data.set 0 (from_temperature v).toNat).length := by
      rw [List.length_set]; exact hraw.2
    rw [List.getD_eq_getElem _ _ h0, List.getElem_set_self]
  · intro i hi
    by_cases hil : i < data.length
    · have hil2 : i < (data.set 0 (from_temperature v).toNat).length := by
        rw [List.length_set]; exact hil
      rw [List.getD_eq_getElem _ _ hil2, List.getD_eq_getElem _ _ hil,
        List.getElem_set_ne (by omega)]
    · rw [List.getD_eq_default, List.getD_eq_default]
      · omega
      · rw [List.length_set]; omega

/-- C5 witness: the payload `[0x28, 0x30, 0xAA, 0xBB]` with setpoint 15.0
yields `[0x1E, 0x30, 0xAA, 0xBB]`; only byte 0 changes. -/
theorem with_set_point_changes_only_byte_zero_witness :
    TemperatureData.from_bytes [40, 48, 170, 187] =
      some ⟨20, 24, [40, 48, 170, 187]⟩ ∧
    TemperatureData.with_set_point ⟨20, 24, [40, 48, 170, 187]⟩ 15 =
      some [30, 48, 170, 187] ∧
    ([30, 48, 170, 187] : List Nat).length = ([40, 48, 170, 187] : List Nat).length ∧
    ([30, 48, 170, 187] : List Nat).getD 0 0 = (from_temperature 15).toNat ∧
    ∀ i, 1 ≤ i →
      ([30, 48, 170, 187] : List Nat).getD i 0 =
        ([40, 48, 170, 187] : List Nat).getD i 0 := by
  have hsp : to_temperature 40 = (20 : ℚ) := by rw [to_temperature]; norm_num
  have hrt : to_temperature 48 = (24 : ℚ) := by rw [to_temperature]; norm_num
  have h1 : TemperatureData.from_bytes [40, 48, 170, 187] =
      some ⟨20, 24, [40, 48, 170, 187]⟩ := by
    rw [TemperatureData.from_bytes, hsp, hrt]
  have hn : ((15 : ℚ) * 2).num = 30 := by norm_num
  have hd : ((15 : ℚ) * 2).den = 1 := by norm_num
  have hft : from_temperature 15 = 30 := by
    rw [from_temperature, pyInt, hn, hd]
    decide
  have h2 : TemperatureData.with_set_point ⟨20, 24, [40, 48, 170, 187]⟩ 15 =
      some [30, 48, 170, 187] := by
    rw [TemperatureData.with_set_point, hft, if_pos (by omega)]
    rfl
  have h3 := with_set_point_changes_only_byte_zero [40, 48, 170, 187] 15 _ _ h1 h2
  exact ⟨h1, h2, h3.1, h3.2.1, h3.2.2⟩

/-- C6 counterexample: the source encodes by truncation (`int(value * 2)`),
which differs from round-to-nearest at the in-range value 20.3: truncation
gives raw 40, round-to-nearest gives 41. -/
theorem from_temperature_is_truncation_not_rounding :
    from_temperature (203 / 10) ≠ round ((203 / 10 : ℚ) / (1 / 2)) := by
  have hn : ((203 : ℚ) / 10 * 2).num = 203 := by norm_num
  have hd : ((203 : ℚ) / 10 * 2).den = 5 := by norm_num
  have h1 : from_temperature (203 / 10) = 40 := by
    rw [from_temperature, pyInt, hn, hd]
    decide
  have h2 : round ((203 / 10 : ℚ) / (1 / 2)) = 41 := by norm_num [round_eq]
  rw [h1, h2]
  decide

/-- C6 (amended): decode is `value = raw * 0.5`; encode computes the raw
byte by truncation toward zero, `raw = int(value * 2)`, which round-trips
every raw byte and agrees with `round(value / 0.5)` exactly on the values
whose doubled value is an integer (every on-grid temperature). -/
theorem temperature_conversion_spec :
    (∀ raw : Nat, to_temperature raw = raw * (1 / 2)) ∧
    (∀ raw : Nat, from_temperature (to_temperature raw) = raw) ∧
    (∀ v : ℚ, (2 * v).den = 1 → from_temperature v = round (v / (1 / 2))) := by
  refine ⟨fun raw => rfl, ?_, ?_⟩
  · intro raw
    have h : to_temperature raw * 2 = ((raw : ℤ) : ℚ) := by
      rw [to_temperature]; push_cast; ring
    rw [from_temperature, h]
    show Int.tdiv ((raw : ℤ) : ℚ).num (((((raw : ℤ) : ℚ)).den : ℤ)) = (raw : ℤ)
    rw [Rat.num_intCast, Rat.den_intCast]
    simpa using Int.tdiv_one (raw : ℤ)
  · intro v hden
    have hnum : (((2 * v).num : ℤ) : ℚ) = 2 * v := (Rat.den_eq_one_iff _).mp hden
    have hv2 : v * 2 = 2 * v := by ring
    rw [from_temperature, hv2]
    show Int.tdiv (2 * v).num (((2 * v).den : ℤ)) = round (v / (1 / 2))
    have hdiv : (v / (1 / 2) : ℚ) = 2 * v := by ring
    rw [hden, hdiv, ← hnum, round_intCast]
    simpa using Int.tdiv_one (2 * v).num

/-- C6 witness: raw byte `0x28` (40) decodes to 20.0 and encodes back to 40;
the on-grid value 15.0 satisfies the round agreement. -/
theorem temperature_conversion_spec_witness :
    to_temperature 40 = (40 : ℚ) * (1 / 2) ∧
    from_temperature (to_temperature 40) = (40 : ℤ) ∧
    ((2 * (15 : ℚ)).den = 1 ∧ from_temperature 15 = round ((15 : ℚ) / (1 / 2))) :=
  ⟨temperature_conversion_spec.1 40,
    temperature_conversion_spec.2.1 40,
    by norm_num,
    temperature_conversion_spec.2.2 15 (by norm_num)⟩

/-- Lower clamp bound from `const.py` (`MIN_TEMP_C = 10.0`). -/
def MIN_TEMP_C : ℚ := 10

/-- Upper clamp bound from `const.py` (`MAX_TEMP_C = 40.0`). -/
def MAX_TEMP_C : ℚ := 40

/-- Clamp performed by `EtrvDevice.async_set_temperature` in `ble/device.py`:
`bounded = max(MIN_TEMP_C, min(MAX_TEMP_C, temperature))`. -/
def bounded_temperature (t : ℚ) : ℚ := max MIN_TEMP_C (min MAX_TEMP_C t)

/-- Payload built by `async_set_temperature` from the decoded current
temperature record: re-decode it and patch only the setpoint byte with the
clamped target. -/
def async_set_temperature_payload (current : List Nat) (t : ℚ) : Option (List Nat) :=
  (TemperatureData.from_bytes current).bind
    (fun r => r.with_set_point (bounded_temperature t))

/-- C8: `async_set_temperature` clamps its target to `[10.0, 40.0]` before
encoding and writing: inputs above the maximum apply the maximum, inputs
below the minimum apply the minimum, and in-range inputs apply unchanged. -/
theorem async_set_temperature_clamps (t : ℚ) :
    (MAX_TEMP_C < t → bounded_temperature t = MAX_TEMP_C) ∧
    (t < MIN_TEMP_C → bounded_temperature t = MIN_TEMP_C) ∧
    (MIN_TEMP_C ≤ t → t ≤ MAX_TEMP_C → bounded_temperature t = t) := by
  refine ⟨?_, ?_, ?_⟩
  · intro h
    rw [bounded_temperature, min_eq_left h.le,
      max_eq_right (by norm_num [MIN_TEMP_C, MAX_TEMP_C])]
  · intro h
    have h40 : t ≤ MAX_TEMP_C := by
      have : MIN_TEMP_C ≤ MAX_TEMP_C := by norm_num [MIN_TEMP_C, MAX_TEMP_C]
      exact h.le.trans this
    rw [bounded_temperature, min_eq_right h40, max_eq_left h.le]
  · intro h1 h2
    rw [bounded_temperature, min_eq_right h2, max_eq_right h1]

/-- C8 witness: 41.0 clamps to 40.0, 5.0 clamps to 10.0, and 20.0 is applied
unchanged. -/
theorem async_set_temperature_clamps_witness :
    bounded_temperature 41 = MAX_TEMP_C ∧
    bounded_temperature 5 = MIN_TEMP_C ∧
    bounded_temperature 20 = 20 :=
  ⟨(async_set_temperature_clamps 41).1 (by norm_num [MAX_TEMP_C]),
    (async_set_temperature_clamps 5).2.1 (by norm_num [MIN_TEMP_C]),
    (async_set_temperature_clamps 20).2.2 (by norm_num [MIN_TEMP_C])
      (by norm_num [MAX_TEMP_C])⟩

/-- Session state of `EtrvBleClient` relevant to PIN gating: whether a
physical connection is held (`_client is not None and connected`) and
whether the PIN was already written on it (`_pin_sent`). -/
structure SessionState where
  connected : Bool
  pin_sent : Bool
deriving DecidableEq, Repr

/-- Embedding of `EtrvBleClient._send_pin_once` on the success path: a no-op
when the PIN was already sent on the current connection or when no client is
held; otherwise one PIN write is performed and the flag is set.  The result
counts the PIN writes performed. -/
def send_pin_once (s : SessionState) : SessionState × Nat :=
  if s.pin_sent then (s, 0)
  else if s.connected = false then (s, 0)
  else (⟨s.connected, true⟩, 1)

/-- Embedding of `EtrvBleClient._ensure_connected` restricted to the success
path: an already-connected client is reused (optionally presenting the PIN);
otherwise a fresh physical connection is established, the PIN-sent flag is
reset for it, and the PIN is optionally presented. -/
def ensure_connected_ok (send_pin : Bool) (s : SessionState) : SessionState × Nat :=
  if s.connected then
    if send_pin then send_pin_once s else (s, 0)
  else
    if send_pin then send_pin_once ⟨true, false⟩ else (⟨true, false⟩, 0)

/-- Embedding of `EtrvBleClient.async_disconnect`: drop the client reference
and reset the PIN-sent flag. -/
def async_disconnect (_s : SessionState) : SessionState := ⟨false, false⟩

/-- Result of one modelled `async_read` call: the session state it leaves
behind, the number of PIN writes it performed, and whether it returned
normally (`ok = false` models a decode error escaping to the caller). -/
structure ReadResult where
  state : SessionState
  pinWrites : Nat
  ok : Bool
deriving DecidableEq, Repr

/-- Embedding of `EtrvBleClient.async_read` (GATT read assumed successful,
secret key present): connect (optionally sending the PIN), read, then decode
when requested — a decode failure raises, skipping the rest of the body —
and finally disconnect when the stay-connected policy is off. -/
def async_read_model (stay_connected send_pin decode decode_ok : Bool)
    (s : SessionState) : ReadResult :=
  let c := ensure_connected_ok send_pin s
  if decode && !decode_ok then ⟨c.1, c.2, false⟩
  else if stay_connected = false then ⟨async_disconnect c.1, c.2, true⟩
  else ⟨c.1, c.2, true⟩

/-- C4: with the stay-connected policy on, two consecutive encrypted reads
on the same established connection write the PIN exactly once (on the first
read, which establishes the connection and resets the PIN-sent flag), and
after a disconnect the next read writes the PIN again. -/
theorem pin_sent_once_per_connection (s : SessionState) (h : s.connected = false) :
    (async_read_model true true true true s).pinWrites = 1 ∧
    (async_read_model true true true true
        (async_read_model true true true true s).state).pinWrites = 0 ∧
    (async_read_model true true true true
        (async_disconnect
          (async_read_model true true true true
            (async_read_model true true true true s).state).state)).pinWrites = 1 := by
  rcases s with ⟨c, p⟩
  simp only at h
  subst h
  cases p <;> exact ⟨rfl, rfl, rfl⟩

/-- C4 witness: the invariant at the initial disconnected state. -/
theorem pin_sent_once_per_connection_witness :
    (async_read_model true true true true ⟨false, false⟩).pinWrites = 1 ∧
    (async_read_model true true true true
        (async_read_model true true true true ⟨false, false⟩).state).pinWrites = 0 ∧
    (async_read_model true true true true
        (async_disconnect
          (async_read_model true true true true
            (async_read_model true true true true ⟨false, false⟩).state).state)).pinWrites = 1 :=
  pin_sent_once_per_connection ⟨false, false⟩ rfl

/-- C10: when decoding fails inside `async_read` with the stay-connected
policy off, the disconnect step is skipped — the error propagates while the
connection stays open and the PIN-sent flag stays set — whereas the success
path disconnects (and clears the flag) before returning. -/
theorem async_read_decode_error_skips_disconnect (s : SessionState) :
    (async_read_model false true true false s).ok = false ∧
    (async_read_model false true true false s).state.connected = true ∧
    (async_read_model false true true false s).state.pin_sent = true ∧
    (async_read_model false true true true s).ok = true ∧
    (async_read_model false true true true s).state.connected = false ∧
    (async_read_model false true true true s).state.pin_sent = false := by
  rcases s with ⟨c, p⟩
  cases c <;> cases p <;> exact ⟨rfl, rfl, rfl, rfl, rfl, rfl⟩

/-- Characteristic UUIDs from `const.py`. -/
def UUID_BATTERY : String := "00002a19-0000-1000-8000-00805f9b34fb"

def UUID_PIN : String := "10020001-2749-0001-0000-00805f9b042f"

def UUID_SETTINGS : String := "10020003-2749-0001-0000-00805f9b042f"

def UUID_TEMPERATURE : String := "10020005-2749-0001-0000-00805f9b042f"

def UUID_NAME : String := "10020006-2749-0001-0000-00805f9b042f"

def UUID_SECRET_KEY : String := "1002000b-2749-0001-0000-00805f9b042f"

/-- Handle cache from `const.py` (`HANDLE_MAP`): UUID to hardcoded GATT
handle. -/
def HANDLE_MAP : List (String × Nat) :=
  [(UUID_BATTERY, 0x10), (UUID_PIN, 0x24), (UUID_SETTINGS, 0x2A),
   (UUID_TEMPERATURE, 0x2D), (UUID_NAME, 0x30), (UUID_SECRET_KEY, 0x3F)]

/-- Outcome of one transport-level GATT read: data, or a raised BleakError. -/
inductive GattOutcome where
  | ok (data : List Nat)
  | bleakError (code : Nat)
deriving DecidableEq, Repr

/-- Embedding of `EtrvBleClient._read_gatt_char`: when the UUID has a cached
numeric handle, try the handle path first and on a BleakError fall back to
the UUID path, returning whatever the UUID path produces; without a cached
handle, go straight to the UUID path.  The two transport paths are supplied
as oracles. -/
def read_gatt_char (readHandle : Nat → GattOutcome) (readUuid : String → GattOutcome)
    (char_uuid : String) : GattOutcome :=
  match HANDLE_MAP.lookup char_uuid with
  | some handle =>
    match readHandle handle with
    | GattOutcome.ok d => GattOutcome.ok d
    | GattOutcome.bleakError _ => readUuid char_uuid
  | none => readUuid char_uuid

/-- C9: whenever a cached numeric handle exists and the handle-path read
raises a transport error, the symbolic-identifier read is attempted and its
result — whatever it is — is returned to the caller; the handle-path failure
is never surfaced. -/
theorem read_gatt_char_handle_fallback (readHandle : Nat → GattOutcome)
    (readUuid : String → GattOutcome) (char_uuid : String) (handle code : Nat)
    (hmap : HANDLE_MAP.lookup char_uuid = some handle)
    (herr : readHandle handle = GattOutcome.bleakError code) :
    read_gatt_char readHandle readUuid char_uuid = readUuid char_uuid := by
  rw [read_gatt_char, hmap]
  show (match readHandle handle with
    | GattOutcome.ok d => GattOutcome.ok d
    | GattOutcome.bleakError _ => readUuid char_uuid) = readUuid char_uuid
  rw [herr]

/-- C9 witness: the temperature UUID has cached handle `0x2D`; with a
handle path that always raises and a UUID path returning data, the data is
returned. -/
theorem read_gatt_char_handle_fallback_witness :
    read_gatt_char (fun _ => GattOutcome.bleakError 7)
        (fun _ => GattOutcome.ok [1, 2, 3, 4]) UUID_TEMPERATURE =
      (fun _ : String => GattOutcome.ok [1, 2, 3, 4]) UUID_TEMPERATURE :=
  read_gatt_char_handle_fallback (fun _ => GattOutcome.bleakError 7)
    (fun _ => GattOutcome.ok [1, 2, 3, 4]) UUID_TEMPERATURE 0x2D 7 (by decide) rfl

/-- Connection constants from `ble/client.py`. -/
def DEFAULT_CONNECT_TIMEOUT : ℚ := 90

def CONNECT_ATTEMPT_TIMEOUT : ℚ := 20

def CONNECT_RETRY_DELAY : ℚ := 1 / 2

def CONNECT_BACKOFF_MAX : ℚ := 8

def CONNECT_BACKOFF_JITTER : ℚ := 35 / 100

def CONNECT_STALE_CLOSE_EVERY : ℚ := 8

/-- Environment of one iteration of the connect loop: how long the stale
cleanup takes when invoked, whether a connectable device is resolved, how
long `establish_connection` would need and whether it would succeed, and the
value drawn by `random.uniform` for the jitter. -/
structure AttemptEnv where
  staleDuration : ℚ
  deviceFound : Bool
  connectDuration : ℚ
  connectOk : Bool
  jitter : ℚ
deriving DecidableEq, Repr

/-- Classification of a failed iteration, mirroring `last_err` in the code:
no connectable device, a TimeoutError from the asyncio guard, or a
BleakError from the transport. -/
inductive ConnErrKind where
  | noDevice
  | timeoutErr
  | bleakErr
deriving DecidableEq, Repr

/-- Mutable state of the `_ensure_connected` while-loop: current monotonic
time, `attempt`, `last_err`, `last_stale_close`. -/
structure LoopState where
  now : ℚ
  attempt : Nat
  lastErr : Option ConnErrKind
  lastStale : ℚ
deriving DecidableEq, Repr

/-- Trace entry for one loop iteration: the attempt number, the time and
the remaining budget measured at the top of the loop, when (if at all) the
physical attempt started, the limit passed to `asyncio.timeout`, when the
physical attempt ended, and how the iteration failed (if it did). -/
structure AttemptRecord where
  idx : Nat
  topTime : ℚ
  remaining : ℚ
  connectStart : Option ℚ
  asyncioLimit : Option ℚ
  connectEnd : Option ℚ
  errKind : Option ConnErrKind
deriving DecidableEq, Repr

/-- Result of the modelled `_ensure_connected`. -/
inductive ConnectResult where
  | connected (t : ℚ) (attempt : Nat)
  | timeoutError (attempt : Nat) (lastErr : Option ConnErrKind)
  | fuelExhausted
deriving DecidableEq, Repr

/-- One iteration of the `_ensure_connected` while-loop of `ble/client.py`
(lines 87-148), driven by the per-iteration environment: check the deadline,
periodically clear stale connections, resolve the device, attempt the
physical link under `asyncio.timeout(per_attempt + 5.0)` where
`per_attempt = min(CONNECT_ATTEMPT_TIMEOUT, remaining)`, and on failure
sleep for the backoff capped by the remaining budget.  Returns either a
terminal result or the state for the next iteration, plus the trace entry. -/
def connect_iteration (env : Nat → AttemptEnv) (deadline : ℚ) (s : LoopState) :
    (ConnectResult ⊕ LoopState) × Option AttemptRecord :=
  let remaining := deadline - s.now
  if remaining ≤ 0 then
    (Sum.inl (ConnectResult.timeoutError s.attempt s.lastErr), none)
  else
    let a := s.attempt + 1
    let e := env s.attempt
    let now1 := if CONNECT_STALE_CLOSE_EVERY < s.now - s.lastStale
      then s.now + e.staleDuration else s.now
    let lastStale1 := if CONNECT_STALE_CLOSE_EVERY < s.now - s.lastStale
      then now1 else s.lastStale
    if e.deviceFound then
      let per := min CONNECT_ATTEMPT_TIMEOUT remaining
      let limit := per + 5
      let endT := now1 + min e.connectDuration limit
      if e.connectOk = true ∧ e.connectDuration ≤ limit then
        (Sum.inl (ConnectResult.connected endT a),
          some ⟨a, s.now, remaining, some now1, some limit, some endT, none⟩)
      else
        let err := if e.connectDuration ≤ limit then ConnErrKind.bleakErr
          else ConnErrKind.timeoutErr
        let backoff := min CONNECT_BACKOFF_MAX (CONNECT_RETRY_DELAY * 2 ^ (a - 1)) + e.jitter
        let sleepFor := min backoff (max 0 (deadline - endT))
        (Sum.inr ⟨endT + sleepFor, a, some err, lastStale1⟩,
          some ⟨a, s.now, remaining, some now1, some limit, some endT, some err⟩)
    else
      let backoff := min CONNECT_BACKOFF_MAX (CONNECT_RETRY_DELAY * 2 ^ (a - 1)) + e.jitter
      let sleepFor := min backoff (max 0 (deadline - now1))
      (Sum.inr ⟨now1 + sleepFor, a, some ConnErrKind.noDevice, lastStale1⟩,
        some ⟨a, s.now, remaining, none, none, none, some ConnErrKind.noDevice⟩)

/-- The `_ensure_connected` while-loop, iterated with explicit fuel (the
real loop is time-bound; fuel exhaustion is reported distinctly and never
identified with any real outcome). -/
def ensure_connected_loop (env : Nat → AttemptEnv) (deadline : ℚ) :
    Nat → LoopState → List AttemptRecord → ConnectResult × List AttemptRecord
  | 0, _, acc => (ConnectResult.fuelExhausted, acc)
  | fuel + 1, s, acc =>
    match connect_iteration env deadline s with
    | (Sum.inl res, none) => (res, acc)
    | (Sum.inl res, some r) => (res, acc ++ [r])
    | (Sum.inr s2, none) => ensure_connected_loop env deadline fuel s2 acc
    | (Sum.inr s2, some r) => ensure_connected_loop env deadline fuel s2 (acc ++ [r])

/-- Entry point of the modelled `_ensure_connected` on the connect path:
`deadline = now + timeout`, `attempt = 0`, `last_err = None`,
`last_stale_close = 0.0`. -/
def ensure_connected_model (env : Nat → AttemptEnv) (t0 timeout : ℚ) (fuel : Nat) :
    ConnectResult × List AttemptRecord :=
  ensure_connected_loop env (t0 + timeout) fuel ⟨t0, 0, none, 0⟩ []

theorem loop_succ_inl_none (env : Nat → AttemptEnv) (deadline : ℚ) (fuel : Nat)
    (s : LoopState) (acc : List AttemptRecord) (res : ConnectResult)
    (hit : connect_iteration env deadline s = (Sum.inl res, none)) :
    ensure_connected_loop env deadline (fuel + 1) s acc = (res, acc) := by
  rw [ensure_connected_loop, hit]

theorem loop_succ_inl_some (env : Nat → AttemptEnv) (deadline : ℚ) (fuel : Nat)
    (s : LoopState) (acc : List AttemptRecord) (res : ConnectResult) (r : AttemptRecord)
    (hit : connect_iteration env deadline s = (Sum.inl res, some r)) :
    ensure_connected_loop env deadline (fuel + 1) s acc = (res, acc ++ [r]) := by
  rw [ensure_connected_loop, hit]

theorem loop_succ_inr_none (env : Nat → AttemptEnv) (deadline : ℚ) (fuel : Nat)
    (s : LoopState) (acc : List AttemptRecord) (s2 : LoopState)
    (hit : connect_iteration env deadline s = (Sum.inr s2, none)) :
    ensure_connected_loop env deadline (fuel + 1) s acc =
      ensure_connected_loop env deadline fuel s2 acc := by
  rw [ensure_connected_loop, hit]

theorem loop_succ_inr_some (env : Nat → AttemptEnv) (deadline : ℚ) (fuel : Nat)
    (s : LoopState) (acc : List AttemptRecord) (s2 : LoopState) (r : AttemptRecord)
    (hit : connect_iteration env deadline s = (Sum.inr s2, some r)) :
    ensure_connected_loop env deadline (fuel + 1) s acc =
      ensure_connected_loop env deadline fuel s2 (acc ++ [r]) := by
  rw [ensure_connected_loop, hit]

theorem connect_iteration_record (env : Nat → AttemptEnv) (deadline : ℚ) (s : LoopState)
    (out : ConnectResult ⊕ LoopState) (r : AttemptRecord)
    (h : connect_iteration env deadline s = (out, some r)) :
    ∀ L, r.asyncioLimit = some L →
      L = min CONNECT_ATTEMPT_TIMEOUT r.remaining + 5 ∧
      ∀ cs ce, r.connectStart = some cs → r.connectEnd = some ce → ce - cs ≤ L := by
  simp only [connect_iteration] at h
  split_ifs at h with h1 h2 h3 h4
  · exact absurd (congrArg Prod.snd h) (by simp)
  all_goals
    injection h with hfst hsnd
  all_goals
    injection hsnd with hr
  all_goals
    subst hr
  all_goals
    intro L hL
  all_goals
    first
    | exact Option.noConfusion hL
    | (injection hL with hLe
       subst hLe
       refine ⟨rfl, ?_⟩
       intro cs ce hcs hce
       injection hcs with hcs
       injection hce with hce
       subst hcs
       subst hce
       rw [add_sub_cancel_left]
       exact min_le_right _ _)

theorem connect_iteration_cases (env : Nat → AttemptEnv) (deadline : ℚ) (s : LoopState) :
    (connect_iteration env deadline s =
        (Sum.inl (ConnectResult.timeoutError s.attempt s.lastErr), none) ∧
      deadline - s.now ≤ 0) ∨
    (∃ t r, connect_iteration env deadline s =
        (Sum.inl (ConnectResult.connected t (s.attempt + 1)), some r)) ∨
    (∃ s2 r, connect_iteration env deadline s = (Sum.inr s2, some r) ∧
      s2.attempt = s.attempt + 1 ∧ s2.lastErr.isSome = true) := by
  simp only [connect_iteration]
  split_ifs with h1 h2 h3 h4
  · exact Or.inl ⟨rfl, h1⟩
  all_goals
    first
    | exact Or.inr (Or.inl ⟨_, _, rfl⟩)
    | exact Or.inr (Or.inr ⟨_, _, rfl, rfl, rfl⟩)

theorem loop_records_spec (env : Nat → AttemptEnv) (deadline : ℚ) :
    ∀ (fuel : Nat) (s : LoopState) (acc : List AttemptRecord),
      (∀ r ∈ acc, ∀ L, r.asyncioLimit = some L →
        L = min CONNECT_ATTEMPT_TIMEOUT r.remaining + 5 ∧
        ∀ cs ce, r.connectStart = some cs → r.connectEnd = some ce → ce - cs ≤ L) →
      ∀ r ∈ (ensure_connected_loop env deadline fuel s acc).2, ∀ L,
        r.asyncioLimit = some L →
        L = min CONNECT_ATTEMPT_TIMEOUT r.remaining + 5 ∧
        ∀ cs ce, r.connectStart = some cs → r.connectEnd = some ce → ce - cs ≤ L := by
  intro fuel
  induction fuel with
  | zero =>
    intro s acc hacc
    rw [ensure_connected_loop]
    exact hacc
  | succ fuel ih =>
    intro s acc hacc
    rcases hit : connect_iteration env deadline s with ⟨out | s2, _ | r0⟩
    · rw [loop_succ_inl_none env deadline fuel s acc out hit]
      exact hacc
    · rw [loop_succ_inl_some env deadline fuel s acc out r0 hit]
      intro r hr
      rcases List.mem_append.mp hr with hmem | hmem
      · exact hacc r hmem
      · have hr0 : r = r0 := by simpa using hmem
        subst hr0
        exact connect_iteration_record env deadline s (Sum.inl out) r hit
    · rw [loop_succ_inr_none env deadline fuel s acc s2 hit]
      exact ih s2 acc hacc
    · rw [loop_succ_inr_some env deadline fuel s acc s2 r0 hit]
      refine ih s2 (acc ++ [r0]) ?_
      intro r hr
      rcases List.mem_append.mp hr with hmem | hmem
      · exact hacc r hmem
      · have hr0 : r = r0 := by simpa using hmem
        subst hr0
        exact connect_iteration_record env deadline s (Sum.inr s2) r hit

/-- C2 (amended): in the connect loop every physical link attempt runs under
an `asyncio.timeout` limit equal to `min(CONNECT_ATTEMPT_TIMEOUT,
time_remaining_at_loop_top) + 5.0` — the computed `per_attempt` bound plus a
fixed five-second grace — and an attempt never runs longer than that limit.
Because of the grace term a single attempt can end past the overall
deadline (by up to five seconds beyond the budget measured at the loop
top). -/
theorem per_attempt_timeout_has_grace (env : Nat → AttemptEnv) (t0 timeout : ℚ)
    (fuel : Nat) :
    ∀ r ∈ (ensure_connected_model env t0 timeout fuel).2, ∀ L,
      r.asyncioLimit = some L →
      L = min CONNECT_ATTEMPT_TIMEOUT r.remaining + 5 ∧
      ∀ cs ce, r.connectStart = some cs → r.connectEnd = some ce → ce - cs ≤ L := by
  rw [ensure_connected_model]
  exact loop_records_spec env (t0 + timeout) fuel ⟨t0, 0, none, 0⟩ [] (by simp)

theorem loop_timeout_spec (env : Nat → AttemptEnv) (deadline : ℚ) :
    ∀ (fuel : Nat) (s : LoopState) (acc : List AttemptRecord) (att : Nat)
      (err : Option ConnErrKind),
      (ensure_connected_loop env deadline fuel s acc).1 = ConnectResult.timeoutError att err →
      s.attempt = acc.length → (1 ≤ s.attempt → s.lastErr.isSome = true) →
      att = (ensure_connected_loop env deadline fuel s acc).2.length ∧
        s.attempt ≤ att ∧ (1 ≤ att → err.isSome = true) := by
  intro fuel
  induction fuel with
  | zero =>
    intro s acc att err h
    rw [ensure_connected_loop] at h
    exact absurd h (by simp)
  | succ fuel ih =>
    intro s acc att err h hlen herr
    rcases connect_iteration_cases env deadline s with
      ⟨hit, _⟩ | ⟨t, r, hit⟩ | ⟨s2, r, hit, hs2a, hs2e⟩
    · rw [loop_succ_inl_none env deadline fuel s acc _ hit] at h ⊢
      injection h with ha he
      subst ha
      subst he
      exact ⟨hlen, le_refl _, herr⟩
    · rw [loop_succ_inl_some env deadline fuel s acc _ r hit] at h
      exact absurd h (by simp)
    · rw [loop_succ_inr_some env deadline fuel s acc s2 r hit] at h ⊢
      have hstep := ih s2 (acc ++ [r]) att err h
        (by rw [hs2a, hlen]; simp)
        (fun _ => hs2e)
      refine ⟨hstep.1, ?_, hstep.2.2⟩
      have : s.attempt ≤ s2.attempt := by omega
      exact this.trans hstep.2.1

/-- C7: when the connect deadline is exhausted, the modelled
`_ensure_connected` fails with the distinct timeout result (the code raises
`EtrvBleTimeoutError`, a class distinct from the generic `EtrvBleError`)
whose reported attempt count equals the number of attempts traced, is at
least 1 whenever the timeout budget was positive, and which carries the
last underlying error. -/
theorem connect_timeout_reports_attempts (env : Nat → AttemptEnv) (t0 timeout : ℚ)
    (fuel : Nat) (att : Nat) (err : Option ConnErrKind) (hpos : 0 < timeout)
    (h : (ensure_connected_model env t0 timeout fuel).1 = ConnectResult.timeoutError att err) :
    1 ≤ att ∧ att = (ensure_connected_model env t0 timeout fuel).2.length ∧
      err.isSome = true := by
  rw [ensure_connected_model] at h ⊢
  cases fuel with
  | zero =>
    rw [ensure_connected_loop] at h
    exact absurd h (by simp)
  | succ fuel =>
    rcases connect_iteration_cases env (t0 + timeout) ⟨t0, 0, none, 0⟩ with
      ⟨hit, hle⟩ | ⟨t, r, hit⟩ | ⟨s2, r, hit, hs2a, hs2e⟩
    · exfalso
      simp only at hle
      have : t0 + timeout - t0 = timeout := by ring
      rw [this] at hle
      linarith
    · rw [loop_succ_inl_some env (t0 + timeout) fuel _ [] _ r hit] at h
      exact absurd h (by simp)
    · rw [loop_succ_inr_some env (t0 + timeout) fuel _ [] s2 r hit] at h ⊢
      have hstep := loop_timeout_spec env (t0 + timeout) fuel s2 ([] ++ [r]) att err h
        (by simp [hs2a])
        (fun _ => hs2e)
      have h1 : 1 ≤ att := by
        have : s2.attempt ≤ att := hstep.2.1
        omega
      exact ⟨h1, hstep.1, hstep.2.2 h1⟩

/-- Environment in which every resolution succeeds but the physical link
attempt fails after 14 seconds (the stale cleanup is instantaneous and the
jitter draw is 0). -/
def envOverrun : Nat → AttemptEnv := fun _ => ⟨0, true, 14, false, 0⟩

theorem envOverrun_run :
    ensure_connected_model envOverrun 100 10 2 =
      (ConnectResult.timeoutError 1 (some ConnErrKind.bleakErr),
        [⟨1, 100, 10, some 100, some 15, some 114, some ConnErrKind.bleakErr⟩]) := by
  have hd : (100 : ℚ) + 10 = 110 := by norm_num
  have h1 : connect_iteration envOverrun 110 ⟨100, 0, none, 0⟩ =
      (Sum.inr ⟨114, 1, some ConnErrKind.bleakErr, 100⟩,
        some ⟨1, 100, 10, some 100, some 15, some 114, some ConnErrKind.bleakErr⟩) := by
    rw [connect_iteration]
    norm_num [envOverrun, CONNECT_STALE_CLOSE_EVERY, CONNECT_ATTEMPT_TIMEOUT,
      CONNECT_RETRY_DELAY, CONNECT_BACKOFF_MAX, min_def, max_def]
  have h2 : connect_iteration envOverrun 110 ⟨114, 1, some ConnErrKind.bleakErr, 100⟩ =
      (Sum.inl (ConnectResult.timeoutError 1 (some ConnErrKind.bleakErr)), none) := by
    rw [connect_iteration]
    norm_num
  rw [ensure_connected_model, hd, show (2 : Nat) = 1 + 1 from rfl,
    loop_succ_inr_some envOverrun 110 1 ⟨100, 0, none, 0⟩ [] _ _ h1,
    show (1 : Nat) = 0 + 1 from rfl,
    loop_succ_inl_none envOverrun 110 0 _ _ _ h2]
  rfl

/-- C2 counterexample: with a 10-second budget and an attempt that fails
after 14 seconds, the single traced attempt runs under an asyncio limit of
15 seconds — not `min(attempt_cap, time_remaining) = min(20, 10) = 10` — and
its physical attempt ends at t = 114, four seconds past the overall deadline
t = 110.  The claimed per-attempt timeout and the claimed impossibility of
overrunning the deadline both fail on this concrete run. -/
theorem connect_attempt_can_overrun_deadline :
    (ensure_connected_model envOverrun 100 10 2).2 =
      [⟨1, 100, 10, some 100, some 15, some 114, some ConnErrKind.bleakErr⟩] ∧
    (15 : ℚ) ≠ min CONNECT_ATTEMPT_TIMEOUT 10 ∧
    (100 + 10 : ℚ) < 114 := by
  refine ⟨?_, ?_, by norm_num⟩
  · rw [envOverrun_run]
  · norm_num [CONNECT_ATTEMPT_TIMEOUT, min_def]

/-- C2 witness: the amended per-attempt-timeout law instantiated on the
concrete overrun run. -/
theorem per_attempt_timeout_has_grace_witness :
    (15 : ℚ) = min CONNECT_ATTEMPT_TIMEOUT 10 + 5 ∧ (114 : ℚ) - 100 ≤ 15 := by
  have hmem :
      (⟨1, 100, 10, some 100, some 15, some 114, some ConnErrKind.bleakErr⟩ : AttemptRecord)
        ∈ (ensure_connected_model envOverrun 100 10 2).2 := by
    rw [envOverrun_run]
    exact List.mem_cons_self _ _
  have h := per_attempt_timeout_has_grace envOverrun 100 10 2 _ hmem 15 rfl
  exact ⟨h.1, h.2 100 114 rfl rfl⟩

/-- Environment in which the device always resolves and every physical link
attempt fails immediately; the jitter draw is one half second. -/
def envAlwaysFail : Nat → AttemptEnv := fun _ => ⟨0, true, 0, false, 1 / 2⟩

theorem envAlwaysFail_run :
    ensure_connected_model envAlwaysFail 100 1 2 =
      (ConnectResult.timeoutError 1 (some ConnErrKind.bleakErr),
        [⟨1, 100, 1, some 100, some 6, some 100, some ConnErrKind.bleakErr⟩]) := by
  have hd : (100 : ℚ) + 1 = 101 := by norm_num
  have h1 : connect_iteration envAlwaysFail 101 ⟨100, 0, none, 0⟩ =
      (Sum.inr ⟨101, 1, some ConnErrKind.bleakErr, 100⟩,
        some ⟨1, 100, 1, some 100, some 6, some 100, some ConnErrKind.bleakErr⟩) := by
    rw [connect_iteration]
    norm_num [envAlwaysFail, CONNECT_STALE_CLOSE_EVERY, CONNECT_ATTEMPT_TIMEOUT,
      CONNECT_RETRY_DELAY, CONNECT_BACKOFF_MAX, min_def, max_def]
  have h2 : connect_iteration envAlwaysFail 101 ⟨101, 1, some ConnErrKind.bleakErr, 100⟩ =
      (Sum.inl (ConnectResult.timeoutError 1 (some ConnErrKind.bleakErr)), none) := by
    rw [connect_iteration]
    norm_num
  rw [ensure_connected_model, hd, show (2 : Nat) = 1 + 1 from rfl,
    loop_succ_inr_some envAlwaysFail 101 1 ⟨100, 0, none, 0⟩ [] _ _ h1,
    show (1 : Nat) = 0 + 1 from rfl,
    loop_succ_inl_none envAlwaysFail 101 0 _ _ _ h2]
  rfl

/-- C7 witness: an always-failing transport with a positive 1-second budget
produces the distinct timeout result after exactly one traced attempt,
carrying the last underlying error. -/
theorem connect_timeout_reports_attempts_witness :
    (ensure_connected_model envAlwaysFail 100 1 2).1 =
      ConnectResult.timeoutError 1 (some ConnErrKind.bleakErr) ∧
    1 ≤ 1 ∧ 1 = (ensure_connected_model envAlwaysFail 100 1 2).2.length ∧
    (some ConnErrKind.bleakErr).isSome = true := by
  have hrun : (ensure_connected_model envAlwaysFail 100 1 2).1 =
      ConnectResult.timeoutError 1 (some ConnErrKind.bleakErr) := by
    rw [envAlwaysFail_run]
  have happ := connect_timeout_reports_attempts envAlwaysFail 100 1 2 1
    (some ConnErrKind.bleakErr) (by norm_num) hrun
  exact ⟨hrun, happ.1, happ.2.1, happ.2.2⟩
